import Mathlib

/-!
Shallow embedding of the override-reconciliation and merge engine of
`tarkov-data-overlay`: the JSON value model, the normalization /
comparison kernel and field validators of `src/lib/task-validator.ts`,
and the overlay apply pipeline (`applyTaskOverlay`,
`applyOverlayToTasks`) of the integration example.
-/

/-- JSON-compatible JavaScript values. `undef` models JavaScript's
`undefined`, which is distinct from `null`. Numbers are modelled as
integers (the repository's data uses integral numbers only). -/
inductive JsonValue where
  | undef : JsonValue
  | null : JsonValue
  | bool (b : Bool) : JsonValue
  | num (n : Int) : JsonValue
  | str (s : String) : JsonValue
  | arr (xs : List JsonValue) : JsonValue
  | obj (fs : List (String × JsonValue)) : JsonValue

mutual

/-- Boolean structural equality on `JsonValue` (the derive handler does
not support this nested inductive). -/
def beqJson : JsonValue → JsonValue → Bool
  | .undef, .undef => true
  | .null, .null => true
  | .bool a, .bool b => a == b
  | .num a, .num b => a == b
  | .str a, .str b => a == b
  | .arr a, .arr b => beqJsonList a b
  | .obj a, .obj b => beqJsonFields a b
  | _, _ => false

def beqJsonList : List JsonValue → List JsonValue → Bool
  | [], [] => true
  | x :: xs, y :: ys => beqJson x y && beqJsonList xs ys
  | _, _ => false

def beqJsonFields : List (String × JsonValue) → List (String × JsonValue) → Bool
  | [], [] => true
  | (k1, v1) :: xs, (k2, v2) :: ys => k1 == k2 && beqJson v1 v2 && beqJsonFields xs ys
  | _, _ => false

end

mutual

theorem beqJson_iff : ∀ a b, beqJson a b = true ↔ a = b
  | .undef, b => by cases b <;> simp [beqJson]
  | .null, b => by cases b <;> simp [beqJson]
  | .bool a, b => by cases b <;> simp [beqJson]
  | .num a, b => by cases b <;> simp [beqJson]
  | .str a, b => by cases b <;> simp [beqJson]
  | .arr a, b => by
      cases b <;> simp [beqJson]
      exact beqJsonList_iff a _
  | .obj a, b => by
      cases b <;> simp [beqJson]
      exact beqJsonFields_iff a _

theorem beqJsonList_iff : ∀ a b, beqJsonList a b = true ↔ a = b
  | [], b => by cases b <;> simp [beqJsonList]
  | x :: xs, b => by
      cases b with
      | nil => simp [beqJsonList]
      | cons y ys =>
          simp [beqJsonList, beqJson_iff x y, beqJsonList_iff xs ys]

theorem beqJsonFields_iff : ∀ a b, beqJsonFields a b = true ↔ a = b
  | [], b => by cases b <;> simp [beqJsonFields]
  | (k1, v1) :: xs, b => by
      cases b with
      | nil => simp [beqJsonFields]
      | cons y ys =>
          obtain ⟨k2, v2⟩ := y
          simp [beqJsonFields, beqJson_iff v1 v2, beqJsonFields_iff xs ys,
            and_assoc, Prod.ext_iff]

end

instance : DecidableEq JsonValue := fun a b =>
  decidable_of_iff (beqJson a b = true) (beqJson_iff a b)

/-- A JavaScript object, modelled as an association list of own
enumerable string-keyed properties in insertion order (JS objects never
hold duplicate keys; lemmas that need that fact take a `Nodup`
hypothesis). -/
abbrev JsObject := List (String × JsonValue)

/-- JavaScript truthiness of a value. -/
def truthy : JsonValue → Bool
  | .undef => false
  | .null => false
  | .bool b => b
  | .num n => n != 0
  | .str s => s ≠ ""
  | .arr _ => true
  | .obj _ => true

/-- Property read `o[k]` on an object: first matching key, `undefined`
when absent. -/
def getProp (o : JsObject) (k : String) : JsonValue :=
  match o.find? (fun kv => kv.1 = k) with
  | some kv => kv.2
  | none => (.undef : JsonValue)

/-- Property write `o[k] = v`: updates the existing key in place
(keeping its position) or appends a new one, as JS assignment does. -/
def setProp (o : JsObject) (k : String) (v : JsonValue) : JsObject :=
  if o.any (fun kv => kv.1 = k) then
    o.map (fun kv => if kv.1 = k then (k, v) else kv)
  else
    o ++ [(k, v)]

/-- Dynamic index `base[k]`: property lookup on objects, `undefined` on
everything else (primitive prototype properties are not modelled). -/
def jsIndex (base : JsonValue) (k : String) : JsonValue :=
  match base with
  | .obj fs => getProp fs k
  | _ => (.undef : JsonValue)

/-- Lower-case hexadecimal digit character for `n < 16`. -/
def hexDigitChar (n : Nat) : Char :=
  "0123456789abcdef".toList.getD n '0'

/-- `QuoteJSONString` escape of a single character, as produced by
JavaScript's `JSON.stringify` on strings. -/
def escChar (c : Char) : List Char :=
  if c = '"' then ['\\', '"']
  else if c = '\\' then ['\\', '\\']
  else if c = '\x08' then ['\\', 'b']
  else if c = '\t' then ['\\', 't']
  else if c = '\n' then ['\\', 'n']
  else if c = '\x0c' then ['\\', 'f']
  else if c = '\r' then ['\\', 'r']
  else if c.toNat < 0x20 then
    ['\\', 'u', '0', '0', hexDigitChar (c.toNat / 16), hexDigitChar (c.toNat % 16)]
  else [c]

/-- JSON string literal for `s`, escaped as `JSON.stringify` does. -/
def jsQuote (s : String) : String :=
  ⟨'"' :: ((s.data.map escChar).flatten ++ ['"'])⟩

/-- `JSON.stringify(value)`: `none` models the `undefined` result (for
`undefined` input). Inside arrays an `undefined` element renders as
`null`; object entries whose value does not stringify are omitted. -/
def jsonStringify : JsonValue → Option String
  | .undef => none
  | .null => some "null"
  | .bool b => some (toString b)
  | .num n => some (toString n)
  | .str s => some (jsQuote s)
  | .arr xs =>
      some ("[" ++ String.intercalate ","
        (xs.attach.map (fun x => (jsonStringify x.1).getD "null")) ++ "]")
  | .obj fs =>
      some ("\x7b" ++ String.intercalate ","
        (fs.attach.filterMap (fun kv =>
          (jsonStringify kv.1.2).map (fun s => jsQuote kv.1.1 ++ ":" ++ s))) ++ "\x7d")
termination_by v => sizeOf v
decreasing_by
  · have := List.sizeOf_lt_of_mem x.2
    simp only [JsonValue.arr.sizeOf_spec]
    omega
  · obtain ⟨⟨a, b⟩, hm⟩ := kv
    have := List.sizeOf_lt_of_mem hm
    simp only [JsonValue.obj.sizeOf_spec, Prod.mk.sizeOf_spec] at this ⊢
    omega

/-- JavaScript `String(value)` coercion. -/
def jsToStr : JsonValue → String
  | .undef => "undefined"
  | .null => "null"
  | .bool b => toString b
  | .num n => toString n
  | .str s => s
  | .arr xs =>
      String.intercalate ","
        (xs.attach.map (fun x =>
          if x.1 = .undef ∨ x.1 = .null then "" else jsToStr x.1))
  | .obj _ => "[object Object]"
termination_by v => sizeOf v
decreasing_by
  have := List.sizeOf_lt_of_mem x.2
  simp only [JsonValue.arr.sizeOf_spec]
  omega

/-- `sortKey` of `task-validator.ts`: the string key an array element is
sorted by during normalization. (The `json ?? String(value)` fallback is
reachable only for arrays/objects, which always stringify.) -/
def sortKey (v : JsonValue) : String :=
  match v with
  | .undef => "undefined"
  | .null => "null"
  | .str s => s
  | .num n => toString n
  | .bool b => toString b
  | v => (jsonStringify v).getD (jsToStr v)

/-- Comparator used for array normalization: the code sorts the derived
`key` strings with `localeCompare`, modelled as lexicographic string
order (equal strings compare equal in every locale, which is all the
tie-sensitive facts below rely on). -/
def keyLE (a b : JsonValue) : Prop := sortKey a ≤ sortKey b

instance : DecidableRel keyLE := fun a b =>
  inferInstanceAs (Decidable (sortKey a ≤ sortKey b))

instance : IsTotal JsonValue keyLE := ⟨fun a b => le_total (sortKey a) (sortKey b)⟩

instance : IsTrans JsonValue keyLE := ⟨fun _ _ _ h1 h2 => le_trans h1 h2⟩

theorem sizeOf_getProp_lt (fs : JsObject) (k : String) :
    sizeOf (getProp fs k) < 1 + sizeOf fs := by
  induction fs with
  | nil => simp [getProp, List.find?]
  | cons kv t ih =>
      obtain ⟨k1, v1⟩ := kv
      by_cases h : k1 = k <;> simp [getProp, List.find?, h] at ih ⊢ <;> omega

/-- `normalizeValue` of `task-validator.ts`: arrays are element-wise
normalized then stably sorted by `sortKey`; objects get their keys
sorted and values normalized; scalars pass through. `insertionSort` here
is stable in exactly the sense JavaScript's `Array.prototype.sort` is. -/
def normalizeValue : JsonValue → JsonValue
  | .arr xs =>
      .arr (List.insertionSort keyLE (xs.attach.map (fun x => normalizeValue x.1)))
  | .obj fs =>
      .obj ((List.insertionSort (· ≤ ·) (fs.map Prod.fst)).map
        (fun k => (k, normalizeValue (getProp fs k))))
  | v => v
termination_by v => sizeOf v
decreasing_by
  · have := List.sizeOf_lt_of_mem x.2
    simp only [JsonValue.arr.sizeOf_spec]
    omega
  · have := sizeOf_getProp_lt fs k
    simp only [JsonValue.obj.sizeOf_spec]
    omega

/-- `valuesEqual` of `task-validator.ts`. -/
def valuesEqual (a b : JsonValue) : Bool :=
  if a = .undef ∧ b = .undef then true
  else jsonStringify (normalizeValue a) == jsonStringify (normalizeValue b)

/-- `compareSubset` of `task-validator.ts`. -/
def compareSubset (overrideValue apiValue : JsonValue) : Bool :=
  if overrideValue = .undef then true
  else
    match overrideValue with
    | .obj fs =>
        match apiValue with
        | .obj afs =>
            fs.attach.all (fun kv => compareSubset kv.1.2 (getProp afs kv.1.1))
        | _ => false
    | _ => valuesEqual overrideValue apiValue
termination_by sizeOf overrideValue
decreasing_by
  obtain ⟨⟨a, b⟩, hm⟩ := kv
  have := List.sizeOf_lt_of_mem hm
  simp only [JsonValue.obj.sizeOf_spec, Prod.mk.sizeOf_spec] at this ⊢
  omega

/-- Status of one field-level finding. -/
inductive DetailStatus where
  | fixed
  | needed
  | check
  | info
deriving DecidableEq

/-- Overall status of one task's reconciliation. -/
inductive ValidationStatus where
  | NEEDED
  | FIXED
  | REMOVED_FROM_API
deriving DecidableEq

structure ValidationDetail where
  field : String
  status : DetailStatus
  message : String
deriving DecidableEq

structure ValidationResult where
  id : String
  name : String
  status : ValidationStatus
  stillNeeded : Bool
  details : List ValidationDetail
deriving DecidableEq

/-- Modelled from the spec: the `task: {id}` part of a requirement
record (the `TaskOverride`/`TaskData` shapes live in
`src/lib/types.ts`, which is not among the provided sources; these
structures follow spec §6 and the validator's field accesses). -/
structure ReqTask where
  id : Option String
deriving DecidableEq

/-- Modelled from the spec: one entry of an override's
`taskRequirements` list. -/
structure OverrideReq where
  task : Option ReqTask
deriving DecidableEq

/-- Modelled from the spec: one entry of a live task's
`taskRequirements` list, `{task: {id}, status}`. -/
structure ApiReq where
  task : Option ReqTask
  status : Option (List String)
deriving DecidableEq

/-- Modelled from the spec: a task override record. Generic JSON fields
are `JsonValue` with `undef` meaning "field not declared". -/
structure TaskOverride where
  disabled : JsonValue := .undef
  minPlayerLevel : JsonValue := .undef
  name : JsonValue := .undef
  wikiLink : JsonValue := .undef
  map : JsonValue := .undef
  experience : JsonValue := .undef
  finishRewards : JsonValue := .undef
  taskRequirements : Option (List OverrideReq) := none
  objectives : Option (List (String × JsObject)) := none
  objectivesAdd : Option (List JsObject) := none

/-- Modelled from the spec: a live task as fetched from the API,
`{id, name, minPlayerLevel, wikiLink, map, experience, finishRewards,
taskRequirements, objectives}`. -/
structure TaskData where
  id : String
  name : String
  minPlayerLevel : JsonValue := .undef
  wikiLink : JsonValue := .undef
  map : JsonValue := .undef
  experience : JsonValue := .undef
  finishRewards : JsonValue := .undef
  taskRequirements : Option (List ApiReq) := none
  objectives : Option (List JsObject) := none

/-- `formatValue` of `task-validator.ts`. -/
def formatValue (value : JsonValue) : String :=
  match value with
  | .undef => "undefined"
  | .null => "undefined"
  | .str s => "\x27" ++ s ++ "\x27"
  | .arr _ => (jsonStringify value).getD "undefined"
  | .obj _ => (jsonStringify value).getD "undefined"
  | _ => jsToStr value

/-- `createFieldValidator` of `task-validator.ts`: a simple field
comparison validator for one top-level field, given the accessors the
dynamic `override[field]` / `apiTask[field]` reads correspond to. -/
def createFieldValidator (field : String) (ovGet : TaskOverride → JsonValue)
    (apiGet : TaskData → JsonValue) :
    TaskOverride → TaskData → Option ValidationDetail :=
  fun override apiTask =>
    let overrideValue := ovGet override
    if overrideValue = .undef then none
    else
      let apiValue := apiGet apiTask
      let isMatch := compareSubset overrideValue apiValue
      some
        { field := field
          status := if isMatch then .fixed else .needed
          message :=
            if isMatch then
              field ++ ": " ++ formatValue apiValue ++ " - FIXED IN API"
            else
              field ++ ": API=" ++ formatValue apiValue ++ ", Override=" ++
                formatValue overrideValue ++ " - STILL NEEDED" }

/-- JavaScript default `Array.prototype.sort` on an array of
`string | undefined`: `undefined` elements go to the end, the rest are
sorted by code-unit order. -/
def sortIds (l : List (Option String)) : List (Option String) :=
  (List.insertionSort (· ≤ ·) (l.filterMap id)).map some ++
    l.filter (fun x => x.isNone)

/-- The JSON array of `string | undefined` ids, as the value
`JSON.stringify` is applied to in `validateTaskRequirements`. -/
def idsToJson (l : List (Option String)) : JsonValue :=
  .arr (l.map (fun x => match x with | none => .undef | some s => .str s))

/-- `ids.join(", ")` — `undefined` entries render as the empty string. -/
def joinIds (l : List (Option String)) : String :=
  String.intercalate ", " (l.map (fun x => x.getD ""))

/-- `validateTaskRequirements` of `task-validator.ts`. -/
def validateTaskRequirements (override : TaskOverride) (apiTask : TaskData) :
    Option ValidationDetail :=
  match override.taskRequirements with
  | none => none
  | some overrideReqs =>
      let apiReqs := (apiTask.taskRequirements.getD []).filter
        (fun r => match r.status with
          | none => true
          | some st => !st.contains "active")
      if apiReqs.length = 0 ∧ overrideReqs.length > 0 then
        some
          { field := "taskRequirements"
            status := .needed
            message := "taskRequirements: API=[] (empty), Override has " ++
              toString overrideReqs.length ++ " requirement(s) - STILL NEEDED" }
      else if apiReqs.length > 0 then
        let apiReqIds := sortIds (apiReqs.map (fun r => r.task.bind (fun t => t.id)))
        let overrideReqIds :=
          sortIds (overrideReqs.map (fun r => r.task.bind (fun t => t.id)))
        if jsonStringify (idsToJson apiReqIds) ≠ jsonStringify (idsToJson overrideReqIds) then
          some
            { field := "taskRequirements"
              status := .needed
              message := "taskRequirements: API has different requirements (" ++
                joinIds apiReqIds ++ ") vs Override (" ++ joinIds overrideReqIds ++
                ") - NEEDS REVIEW" }
        else
          some
            { field := "taskRequirements"
              status := .fixed
              message := "taskRequirements: FIXED IN API" }
      else none

/-- `FIELD_VALIDATORS` of `task-validator.ts`, in source order. -/
def FIELD_VALIDATORS : List (TaskOverride → TaskData → Option ValidationDetail) :=
  [createFieldValidator "minPlayerLevel" (fun o => o.minPlayerLevel) (fun t => t.minPlayerLevel),
   createFieldValidator "name" (fun o => o.name) (fun t => .str t.name),
   createFieldValidator "wikiLink" (fun o => o.wikiLink) (fun t => t.wikiLink),
   createFieldValidator "map" (fun o => o.map) (fun t => t.map),
   createFieldValidator "experience" (fun o => o.experience) (fun t => t.experience),
   createFieldValidator "finishRewards" (fun o => o.finishRewards) (fun t => t.finishRewards),
   validateTaskRequirements]

/-- JavaScript `===` on JSON values. Distinct arrays/objects compare by
reference; the validator only ever compares values deserialized from
different sources, so those are never the same reference and the model
returns `false`. -/
def strictEq (a b : JsonValue) : Bool :=
  match a, b with
  | .undef, .undef => true
  | .null, .null => true
  | .bool x, .bool y => x == y
  | .num x, .num y => x == y
  | .str x, .str y => x == y
  | _, _ => false

/-- The nested per-objective checks of `validateTaskOverride`. -/
def objectiveDetails (override : TaskOverride) (apiTask : TaskData) :
    List ValidationDetail :=
  match override.objectives with
  | none => []
  | some entries =>
      entries.flatMap (fun ent =>
        let objId := ent.1
        match (apiTask.objectives.getD []).find?
            (fun o => strictEq (getProp o "id") (.str objId)) with
        | none =>
            [{ field := "objective:" ++ objId
               status := .check
               message := "objective " ++ objId ++ ": Not found in API - CHECK MANUALLY" }]
        | some apiObj =>
            ent.2.filterMap (fun fv =>
              if fv.2 = .undef then none
              else
                let apiValue := getProp apiObj fv.1
                let isMatch := compareSubset fv.2 apiValue
                some
                  { field := "objective:" ++ objId ++ ":" ++ fv.1
                    status := if isMatch then .fixed else .needed
                    message :=
                      if isMatch then
                        "objective " ++ fv.1 ++ ": " ++ formatValue apiValue ++
                          " - FIXED IN API"
                      else
                        "objective " ++ fv.1 ++ ": API=" ++ formatValue apiValue ++
                          ", Override=" ++ formatValue fv.2 ++ " - STILL NEEDED" }))

/-- The added-objective checks of `validateTaskOverride`. -/
def objectivesAddDetails (override : TaskOverride) (apiTask : TaskData) :
    List ValidationDetail :=
  match override.objectivesAdd with
  | none => []
  | some adds =>
      adds.map (fun added =>
        let tag := jsToStr
          (if truthy (getProp added "id") then getProp added "id"
           else getProp added "description")
        let desc := jsToStr (getProp added "description")
        match (apiTask.objectives.getD []).find? (fun o =>
            strictEq (getProp o "id") (getProp added "id") ||
            strictEq (getProp o "description") (getProp added "description")) with
        | some _ =>
            { field := "objectivesAdd:" ++ tag
              status := .fixed
              message := "added objective \x27" ++ desc ++
                "\x27: NOW IN API - MOVE TO OBJECTIVES OR REMOVE" }
        | none =>
            { field := "objectivesAdd:" ++ tag
              status := .needed
              message := "added objective \x27" ++ desc ++
                "\x27: Still missing from API - STILL NEEDED" })

/-- `validateTaskOverride` of `task-validator.ts`. -/
def validateTaskOverride (taskId : String) (override : TaskOverride)
    (apiTasks : List TaskData) : ValidationResult :=
  match apiTasks.find? (fun t => t.id == taskId) with
  | none =>
      { id := taskId
        name := "Unknown"
        status := .REMOVED_FROM_API
        stillNeeded := false
        details := [{ field := "task"
                      status := .info
                      message := "Task not found in API - has been removed from tarkov.dev" }] }
  | some apiTask =>
      if override.disabled = .bool true then
        { id := taskId
          name := apiTask.name
          status := .REMOVED_FROM_API
          stillNeeded := false
          details := [{ field := "disabled"
                        status := .info
                        message := "Task still in API but marked as disabled - should be removed from API or override can be removed" }] }
      else
        let details := FIELD_VALIDATORS.filterMap (fun v => v override apiTask) ++
          objectiveDetails override apiTask ++ objectivesAddDetails override apiTask
        let needsOverride := details.any
          (fun d => d.status == DetailStatus.needed || d.status == DetailStatus.check)
        { id := taskId
          name := apiTask.name
          status := if needsOverride then .NEEDED else .FIXED
          stillNeeded := needsOverride
          details := details }

/-- Is the value a JavaScript number? -/
def isNumber : JsonValue → Bool
  | .num _ => true
  | _ => false

/-- Spread of a value into an array literal (`[...v]`): arrays spread
their elements, strings their characters; spreading any other value
throws a `TypeError`, modelled as `Except.error`. -/
def spreadToList (v : JsonValue) : Except String (List JsonValue) :=
  match v with
  | .arr xs => .ok xs
  | .str s => .ok (s.data.map (fun c => .str (String.mk [c])))
  | _ => .error "value is not iterable"

/-- `Object.entries(v)` / object-spread source properties: objects
contribute their own enumerable properties in order, strings their
indexed characters, all other primitives nothing. Never throws. -/
def jsEntries (v : JsonValue) : JsObject :=
  match v with
  | .obj fs => fs
  | .str s => s.data.enum.map (fun p => (toString p.1, .str (String.mk [p.2])))
  | _ => []

/-- Sequential property assignment, as `\x7b...a, ...b\x7d` performs for
the properties of `b` over a copy of `a`. -/
def assignProps (o : JsObject) (ps : JsObject) : JsObject :=
  ps.foldl (fun acc kv => setProp acc kv.1 kv.2) o

/-- The object literal `\x7b...o, ...p\x7d`. -/
def jsSpread2 (o p : JsonValue) : JsonValue :=
  .obj (assignProps (jsEntries o) (jsEntries p))

/-- Body of the top-level field loop of `applyTaskOverlay`: skip
`objectives`/`objectivesAdd`, otherwise assign the property (the
`minPlayerLevel`/`map` guards of the source exist only to satisfy the
TypeScript checker — every non-skipped branch performs the same
assignment). -/
def overrideStep (acc : JsObject) (kv : String × JsonValue) : JsObject :=
  if kv.1 = "objectives" ∨ kv.1 = "objectivesAdd" then acc
  else if kv.1 = "minPlayerLevel" ∧ isNumber kv.2 then setProp acc kv.1 kv.2
  else if kv.1 = "map" ∧ truthy kv.2 then setProp acc kv.1 kv.2
  else setProp acc kv.1 kv.2

/-- `applyTaskOverlay` of the integration example. `Except.error`
models a thrown `TypeError`; `Except.ok none` models the `null` return
for a disabled task; tasks and the overlay are JS objects. -/
def applyTaskOverlay (task : JsObject) (overlay : JsObject) :
    Except String (Option JsObject) := do
  let taskOverride := jsIndex (getProp overlay "tasks") (jsToStr (getProp task "id"))
  if ¬ truthy taskOverride then
    return (some task)
  if jsIndex taskOverride "disabled" = .bool true then
    return none
  let result := task
  let result := (jsEntries taskOverride).foldl overrideStep result
  let result ←
    if truthy (jsIndex taskOverride "objectives") ∧ truthy (getProp task "objectives") then
      match getProp task "objectives" with
      | .arr objs =>
          pure (setProp result "objectives" (.arr (objs.map (fun objective =>
            let patch := jsIndex (jsIndex taskOverride "objectives")
              (jsToStr (jsIndex objective "id"))
            if ¬ truthy patch then objective
            else jsSpread2 objective patch))))
      | _ => throw "task.objectives.map is not a function"
    else
      pure result
  let result ←
    if truthy (jsIndex taskOverride "objectivesAdd") then do
      let existing ←
        (if truthy (getProp result "objectives") then
          spreadToList (getProp result "objectives")
        else
          pure [])
      let added ← spreadToList (jsIndex taskOverride "objectivesAdd")
      pure (setProp result "objectives" (.arr (existing ++ added)))
    else
      pure result
  return (some result)

/-- `applyOverlayToTasks` of the integration example. -/
def applyOverlayToTasks (tasks : List JsObject) (overlay : JsObject) :
    Except String (List JsObject) := do
  let mapped ← tasks.mapM (fun task => applyTaskOverlay task overlay)
  return (mapped.filterMap id)


theorem find?_map_upd (o : JsObject) (k k' : String) (v : JsonValue) (h : k' ≠ k) :
    getProp (o.map (fun kv => if kv.1 = k then (k, v) else kv)) k' = getProp o k' := by
  induction o with
  | nil => simp [getProp]
  | cons kv t ih =>
      by_cases hk : kv.1 = k
      · have h1 : ¬ ((k : String) = k') := Ne.symm h
        have h2 : ¬ (kv.1 = k') := by rw [hk]; exact Ne.symm h
        simp only [List.map_cons, hk, if_pos, getProp, List.find?] at ih ⊢
        simp [h1, h2] at ih ⊢
        exact ih
      · simp only [List.map_cons, hk, if_neg, ite_false, getProp, List.find?] at ih ⊢
        by_cases h3 : kv.1 = k'
        · simp [h3]
        · simp [h3] at ih ⊢
          exact ih

theorem getProp_map_upd_self (o : JsObject) (k : String) (v : JsonValue)
    (h : o.any (fun kv => kv.1 = k)) :
    getProp (o.map (fun kv => if kv.1 = k then (k, v) else kv)) k = v := by
  induction o with
  | nil => simp at h
  | cons kv t ih =>
      by_cases hk : kv.1 = k
      · simp [getProp, List.find?, hk]
      · simp only [List.any_cons, hk, decide_eq_true_eq, false_or] at h
        simp only [List.map_cons, hk, ite_false, getProp, List.find?] at ih ⊢
        simp [hk]
        simpa [getProp] using ih h

theorem getProp_append_single_self (o : JsObject) (k : String) (v : JsonValue)
    (h : ¬ o.any (fun kv => kv.1 = k)) :
    getProp (o ++ [(k, v)]) k = v := by
  induction o with
  | nil => simp [getProp, List.find?]
  | cons kv t ih =>
      simp only [List.any_cons, Bool.or_eq_true, decide_eq_true_eq] at h
      push_neg at h
      simp only [List.cons_append, getProp, List.find?, h.1]
      simpa [getProp] using ih (by simpa using h.2)

theorem getProp_append_single_ne (o : JsObject) (k k' : String) (v : JsonValue)
    (h : k' ≠ k) : getProp (o ++ [(k, v)]) k' = getProp o k' := by
  induction o with
  | nil => simp [getProp, List.find?, Ne.symm h]
  | cons kv t ih =>
      by_cases h3 : kv.1 = k'
      · simp [getProp, List.find?, h3]
      · simp only [List.cons_append, getProp, List.find?, h3] at ih ⊢
        simpa [h3] using ih

theorem getProp_setProp_self (o : JsObject) (k : String) (v : JsonValue) :
    getProp (setProp o k v) k = v := by
  unfold setProp
  by_cases h : o.any (fun kv => kv.1 = k)
  · simpa [h] using getProp_map_upd_self o k v h
  · simpa [h] using getProp_append_single_self o k v h

theorem getProp_setProp_ne (o : JsObject) (k k' : String) (v : JsonValue)
    (h : k' ≠ k) : getProp (setProp o k v) k' = getProp o k' := by
  unfold setProp
  by_cases hany : o.any (fun kv => kv.1 = k)
  · simpa [hany] using find?_map_upd o k k' v h
  · simpa [hany] using getProp_append_single_ne o k k' v h

theorem overrideStep_eq (acc : JsObject) (kv : String × JsonValue) :
    overrideStep acc kv =
      if kv.1 = "objectives" ∨ kv.1 = "objectivesAdd" then acc
      else setProp acc kv.1 kv.2 := by
  unfold overrideStep
  by_cases h : kv.1 = "objectives" ∨ kv.1 = "objectivesAdd" <;> simp [h]

theorem foldl_overrideStep_getProp_notin (ps : JsObject) (o : JsObject) (k : String)
    (hk : k ∉ ps.map Prod.fst) :
    getProp (ps.foldl overrideStep o) k = getProp o k := by
  induction ps generalizing o with
  | nil => rfl
  | cons kv rest ih =>
      simp only [List.map_cons, List.mem_cons] at hk
      push_neg at hk
      simp only [List.foldl_cons]
      rw [ih _ hk.2, overrideStep_eq]
      by_cases h : kv.1 = "objectives" ∨ kv.1 = "objectivesAdd"
      · simp [h]
      · simp only [h, if_false]
        exact getProp_setProp_ne o kv.1 k kv.2 hk.1

theorem foldl_overrideStep_getProp_skip (ps : JsObject) (o : JsObject) (k : String)
    (hk : k = "objectives" ∨ k = "objectivesAdd") :
    getProp (ps.foldl overrideStep o) k = getProp o k := by
  induction ps generalizing o with
  | nil => rfl
  | cons kv rest ih =>
      simp only [List.foldl_cons]
      rw [ih, overrideStep_eq]
      by_cases h : kv.1 = "objectives" ∨ kv.1 = "objectivesAdd"
      · simp [h]
      · simp only [h, if_false]
        exact getProp_setProp_ne o kv.1 k kv.2 (fun he => h (he ▸ hk))

theorem foldl_overrideStep_getProp_mem (ps : JsObject) (o : JsObject) (k : String)
    (hnd : (ps.map Prod.fst).Nodup) (hmem : k ∈ ps.map Prod.fst)
    (hk1 : k ≠ "objectives") (hk2 : k ≠ "objectivesAdd") :
    getProp (ps.foldl overrideStep o) k = getProp ps k := by
  induction ps generalizing o with
  | nil => simp at hmem
  | cons kv rest ih =>
      simp only [List.map_cons, List.nodup_cons] at hnd
      simp only [List.foldl_cons]
      by_cases h : kv.1 = k
      · have hnot : k ∉ rest.map Prod.fst := h ▸ hnd.1
        rw [foldl_overrideStep_getProp_notin rest _ k hnot, overrideStep_eq]
        have hski : ¬ (kv.1 = "objectives" ∨ kv.1 = "objectivesAdd") := by
          rw [h]; tauto
        simp only [hski, if_false]
        rw [h, getProp_setProp_self]
        simp [getProp, List.find?, h]
      · simp only [List.map_cons, List.mem_cons] at hmem
        rcases hmem with hmem | hmem
        · exact absurd hmem.symm h
        · rw [ih _ hnd.2 hmem]
          simp [getProp, List.find?, h]

/-- The objective list produced by the objective-patch step of
`applyTaskOverlay` for a task whose live objectives are `tl`. -/
def mergedObjectiveList (patch : JsObject) (tl : List JsonValue) : List JsonValue :=
  if truthy (getProp patch "objectives") then
    tl.map (fun objective =>
      let p := jsIndex (getProp patch "objectives") (jsToStr (jsIndex objective "id"))
      if ¬ truthy p then objective else jsSpread2 objective p)
  else tl

/-- Normal form of `applyTaskOverlay` when the task has an override
patch that is not disabled, the task has an objectives array, and the
patch's `objectivesAdd` is absent (`al = []`) or an array `al`. -/
theorem applyTaskOverlay_normal (task overlay patch : JsObject)
    (tl al : List JsonValue)
    (hlk : jsIndex (getProp overlay "tasks") (jsToStr (getProp task "id")) = .obj patch)
    (hdis : getProp patch "disabled" ≠ .bool true)
    (hobjs : getProp task "objectives" = .arr tl)
    (hadds : (getProp patch "objectivesAdd" = .undef ∧ al = []) ∨
      getProp patch "objectivesAdd" = .arr al) :
    ∃ out, applyTaskOverlay task overlay = .ok (some out) ∧
      getProp out "objectives" = .arr (mergedObjectiveList patch tl ++ al) ∧
      ∀ k, k ≠ "objectives" → k ≠ "objectivesAdd" → k ∈ patch.map Prod.fst →
        (patch.map Prod.fst).Nodup → getProp out k = getProp patch k := by
  have hfold : ∀ k, k ≠ "objectives" → k ≠ "objectivesAdd" → k ∈ patch.map Prod.fst →
      (patch.map Prod.fst).Nodup →
      getProp (patch.foldl overrideStep task) k = getProp patch k :=
    fun k h1 h2 h3 h4 => foldl_overrideStep_getProp_mem patch task k h4 h3 h1 h2
  unfold applyTaskOverlay
  rw [hlk]
  rw [if_neg (by simp [truthy])]
  rw [if_neg (by simpa [jsIndex] using hdis)]
  simp only [pure_bind, jsIndex, jsEntries, hobjs]
  by_cases hpo : truthy (getProp patch "objectives") = true
  · rw [if_pos ⟨hpo, rfl⟩]
    rcases hadds with ⟨hau, hal⟩ | haa
    · subst hal
      rw [hau]
      rw [if_neg (by simp [truthy])]
      refine ⟨_, rfl, ?_, ?_⟩
      · rw [getProp_setProp_self]
        simp [mergedObjectiveList, hpo, jsIndex]
      · intro k h1 h2 h3 h4
        rw [getProp_setProp_ne _ _ _ _ h1]
        exact hfold k h1 h2 h3 h4
    · rw [haa]
      rw [if_pos (by simp [truthy])]
      rw [getProp_setProp_self]
      rw [if_pos (by simp [truthy])]
      simp only [spreadToList, pure_bind]
      refine ⟨_, rfl, ?_, ?_⟩
      · rw [getProp_setProp_self]
        simp [mergedObjectiveList, hpo, jsIndex]
      · intro k h1 h2 h3 h4
        rw [getProp_setProp_ne _ _ _ _ h1, getProp_setProp_ne _ _ _ _ h1]
        exact hfold k h1 h2 h3 h4
  · rw [if_neg (by simp [hpo])]
    have hsk : getProp (patch.foldl overrideStep task) "objectives" = .arr tl := by
      rw [foldl_overrideStep_getProp_skip patch task _ (Or.inl rfl), hobjs]
    rcases hadds with ⟨hau, hal⟩ | haa
    · subst hal
      rw [hau]
      rw [if_neg (by simp [truthy])]
      refine ⟨_, rfl, ?_, ?_⟩
      · rw [hsk]
        simp [mergedObjectiveList, hpo]
      · intro k h1 h2 h3 h4
        exact hfold k h1 h2 h3 h4
    · rw [haa]
      rw [if_pos (by simp [truthy])]
      rw [hsk]
      rw [if_pos (by simp [truthy])]
      simp only [spreadToList, pure_bind]
      refine ⟨_, rfl, ?_, ?_⟩
      · rw [getProp_setProp_self]
        simp [mergedObjectiveList, hpo]
      · intro k h1 h2 h3 h4
        rw [getProp_setProp_ne _ _ _ _ h1]
        exact hfold k h1 h2 h3 h4

/-- Claim C10: only `disabled === true` drops a task; any other value of
the `disabled` key leaves the task in place and is shallow-merged onto
the corrected task as an ordinary field. -/
theorem c10_disabled_nontrue_kept (task overlay patch : JsObject) (dv : JsonValue)
    (tl : List JsonValue)
    (hlk : jsIndex (getProp overlay "tasks") (jsToStr (getProp task "id")) = .obj patch)
    (hnd : (patch.map Prod.fst).Nodup)
    (hmem : "disabled" ∈ patch.map Prod.fst)
    (hdis : getProp patch "disabled" = dv)
    (hne : dv ≠ .bool true)
    (hobjs : getProp task "objectives" = .arr tl)
    (hadds : getProp patch "objectivesAdd" = .undef ∨
      ∃ al, getProp patch "objectivesAdd" = .arr al) :
    ∃ out, applyTaskOverlay task overlay = .ok (some out) ∧
      getProp out "disabled" = dv := by
  have hne' : getProp patch "disabled" ≠ .bool true := by rw [hdis]; exact hne
  have hd1 : ("disabled" : String) ≠ "objectives" := by decide
  have hd2 : ("disabled" : String) ≠ "objectivesAdd" := by decide
  rcases hadds with h | ⟨al, h⟩
  · obtain ⟨out, ho, _, hk⟩ :=
      applyTaskOverlay_normal task overlay patch tl [] hlk hne' hobjs (Or.inl ⟨h, rfl⟩)
    exact ⟨out, ho, by rw [hk "disabled" hd1 hd2 hmem hnd, hdis]⟩
  · obtain ⟨out, ho, _, hk⟩ :=
      applyTaskOverlay_normal task overlay patch tl al hlk hne' hobjs (Or.inr h)
    exact ⟨out, ho, by rw [hk "disabled" hd1 hd2 hmem hnd, hdis]⟩

theorem getProp_assignProps (b a : JsObject) (k : String)
    (hnd : (b.map Prod.fst).Nodup) :
    getProp (assignProps a b) k =
      if k ∈ b.map Prod.fst then getProp b k else getProp a k := by
  induction b generalizing a with
  | nil => simp [assignProps]
  | cons kv rest ih =>
      simp only [List.map_cons, List.nodup_cons] at hnd
      simp only [assignProps, List.foldl_cons] at ih ⊢
      by_cases hk : k = kv.1
      · subst hk
        rw [ih _ hnd.2]
        simp only [List.map_cons, List.mem_cons, true_or, if_pos]
        rw [if_neg hnd.1]
        rw [getProp_setProp_self]
        simp [getProp, List.find?]
      · rw [ih _ hnd.2]
        by_cases hmem : k ∈ rest.map Prod.fst
        · rw [if_pos hmem, if_pos (by simp [hmem])]
          simp [getProp, List.find?, Ne.symm hk]
        · rw [if_neg hmem, if_neg (by simp [hk, hmem])]
          exact getProp_setProp_ne a kv.1 k kv.2 hk

theorem getProp_eq_undef_of_none (o : JsObject) (k : String)
    (h : o.find? (fun kv => kv.1 = k) = none) : getProp o k = .undef := by
  unfold getProp
  rw [h]

theorem getProp_eq_of_find? (o : JsObject) (k : String) (kv : String × JsonValue)
    (h : o.find? (fun kv => kv.1 = k) = some kv) : getProp o k = kv.2 := by
  unfold getProp
  rw [h]

theorem mergedObjectiveList_length (patch : JsObject) (tl : List JsonValue) :
    (mergedObjectiveList patch tl).length = tl.length := by
  unfold mergedObjectiveList
  by_cases h : truthy (getProp patch "objectives") = true <;> simp [h]

theorem mergedObjectiveList_elem (patch po : JsObject) (tl : List JsonValue)
    (hpo : getProp patch "objectives" = .obj po ∨
      (getProp patch "objectives" = .undef ∧ po = []))
    (i : Nat) (ofs : JsObject) (oid : String)
    (hi : tl[i]? = some (.obj ofs)) (hid : getProp ofs "id" = .str oid) :
    (po.find? (fun kv => kv.1 = oid) = none →
      (mergedObjectiveList patch tl)[i]? = some (.obj ofs)) ∧
    (∀ pk pfs, po.find? (fun kv => kv.1 = oid) = some (pk, .obj pfs) →
      (mergedObjectiveList patch tl)[i]? = some (.obj (assignProps ofs pfs))) := by
  rcases hpo with hob | ⟨hpu, hponil⟩
  · constructor
    · intro hnone
      have hpv : getProp po oid = .undef := getProp_eq_undef_of_none po oid hnone
      unfold mergedObjectiveList
      rw [hob, if_pos (by simp [truthy])]
      rw [List.getElem?_map, hi]
      simp [jsIndex, hid, jsToStr, hpv, truthy]
    · intro pk pfs hsome
      have hpv : getProp po oid = .obj pfs := getProp_eq_of_find? po oid _ hsome
      unfold mergedObjectiveList
      rw [hob, if_pos (by simp [truthy])]
      rw [List.getElem?_map, hi]
      simp [jsIndex, hid, jsToStr, hpv, truthy, jsSpread2, jsEntries]
  · subst hponil
    constructor
    · intro hnone
      unfold mergedObjectiveList
      rw [hpu]
      simp [truthy, hi]
    · intro pk pfs hsome
      simp at hsome

/-- Claim C3: objective patches shallow-merge onto ID-matching
objectives, unmatched objectives pass through unchanged, original order
is preserved, and `objectivesAdd` records are appended as-is after all
original objectives. -/
theorem c3_objectives_merge_and_append
    (task overlay patch po : JsObject) (tl adds : List JsonValue)
    (hlk : jsIndex (getProp overlay "tasks") (jsToStr (getProp task "id")) = .obj patch)
    (hdis : getProp patch "disabled" ≠ .bool true)
    (hobjs : getProp task "objectives" = .arr tl)
    (hpo : getProp patch "objectives" = .obj po ∨
      (getProp patch "objectives" = .undef ∧ po = []))
    (hadds : getProp patch "objectivesAdd" = .arr adds ∨
      (getProp patch "objectivesAdd" = .undef ∧ adds = [])) :
    ∃ out : JsObject, ∃ merged : List JsonValue,
      applyTaskOverlay task overlay = .ok (some out) ∧
      getProp out "objectives" = .arr (merged ++ adds) ∧
      merged.length = tl.length ∧
      (∀ (i : Nat) (ofs : JsObject) (oid : String),
        tl[i]? = some (JsonValue.obj ofs) → getProp ofs "id" = .str oid →
        ((po.find? (fun kv => kv.1 = oid) = none →
            merged[i]? = some (JsonValue.obj ofs)) ∧
         (∀ (pk : String) (pfs : JsObject),
           po.find? (fun kv => kv.1 = oid) = some (pk, .obj pfs) →
           merged[i]? = some (JsonValue.obj (assignProps ofs pfs)) ∧
           ((pfs.map Prod.fst).Nodup → ∀ key,
             getProp (assignProps ofs pfs) key =
               if key ∈ pfs.map Prod.fst then getProp pfs key
               else getProp ofs key)))) ∧
      (∀ j, (merged ++ adds)[tl.length + j]? = adds[j]?) := by
  have hadds' : (getProp patch "objectivesAdd" = .undef ∧ adds = []) ∨
      getProp patch "objectivesAdd" = .arr adds := hadds.symm
  obtain ⟨out, ho, hobj, _⟩ :=
    applyTaskOverlay_normal task overlay patch tl adds hlk hdis hobjs hadds'
  refine ⟨out, mergedObjectiveList patch tl, ho, hobj,
    mergedObjectiveList_length patch tl, ?_, ?_⟩
  · intro i ofs oid hi hid
    obtain ⟨h1, h2⟩ := mergedObjectiveList_elem patch po tl hpo i ofs oid hi hid
    exact ⟨h1, fun pk pfs hf =>
      ⟨h2 pk pfs hf, fun hnd key => getProp_assignProps pfs ofs key hnd⟩⟩
  · intro j
    rw [List.getElem?_append_right
      (by rw [mergedObjectiveList_length]; omega)]
    rw [mergedObjectiveList_length]
    congr 1
    omega

/-- Claim C5: a task whose ID has no entry in the overlay's task map is
returned unchanged by `applyTaskOverlay`. -/
theorem c5_apply_overlay_noop (task overlay tm : JsObject)
    (htm : getProp overlay "tasks" = .obj tm)
    (hno : tm.find? (fun kv => kv.1 = jsToStr (getProp task "id")) = none) :
    applyTaskOverlay task overlay = .ok (some task) := by
  have hkey : jsIndex (getProp overlay "tasks") (jsToStr (getProp task "id")) = .undef := by
    rw [htm]
    exact getProp_eq_undef_of_none tm _ hno
  unfold applyTaskOverlay
  rw [hkey]
  rfl

/-- Claim C4: an override with `disabled === true` makes
`applyTaskOverlay` return `null`, and the batch form omits the task
while leaving the rest of the batch as-is. -/
theorem c4_disabled_drops_task (t overlay patch : JsObject)
    (hlk : jsIndex (getProp overlay "tasks") (jsToStr (getProp t "id")) = .obj patch)
    (hdis : getProp patch "disabled" = .bool true) :
    applyTaskOverlay t overlay = .ok none ∧
    ∀ l₁ l₂ : List JsObject,
      applyOverlayToTasks (l₁ ++ t :: l₂) overlay =
        applyOverlayToTasks (l₁ ++ l₂) overlay := by
  have h1 : applyTaskOverlay t overlay = .ok none := by
    unfold applyTaskOverlay
    rw [hlk]
    simp only [jsIndex]
    rw [hdis]
    simp only [truthy]
    rfl
  refine ⟨h1, fun l₁ l₂ => ?_⟩
  unfold applyOverlayToTasks
  rw [List.mapM_append, List.mapM_append, List.mapM_cons, h1]
  simp [bind_assoc, pure_bind, List.filterMap_append,
    show (Except.ok none : Except String (Option JsObject)) = pure none from rfl]

/-- Claim C1: a validation result's status is `REMOVED_FROM_API` exactly
when the task id is absent from the live list or the override is
disabled; otherwise it is `NEEDED` exactly when some detail is `needed`
or `check`, and `FIXED` otherwise; `stillNeeded` holds exactly for
`NEEDED` results, and every result carries exactly one of the three
statuses. -/
theorem c1_validation_result_invariant (taskId : String) (override : TaskOverride)
    (apiTasks : List TaskData) :
    ((validateTaskOverride taskId override apiTasks).status = .REMOVED_FROM_API ↔
      (apiTasks.find? (fun t => t.id == taskId) = none ∨
        override.disabled = .bool true)) ∧
    ((validateTaskOverride taskId override apiTasks).status = .NEEDED ↔
      (validateTaskOverride taskId override apiTasks).details.any
        (fun d => d.status == DetailStatus.needed || d.status == DetailStatus.check)) ∧
    ((validateTaskOverride taskId override apiTasks).stillNeeded = true ↔
      (validateTaskOverride taskId override apiTasks).status = .NEEDED) ∧
    ((validateTaskOverride taskId override apiTasks).status = .FIXED ∨
      (validateTaskOverride taskId override apiTasks).status = .NEEDED ∨
      (validateTaskOverride taskId override apiTasks).status = .REMOVED_FROM_API) := by
  unfold validateTaskOverride
  cases hf : apiTasks.find? (fun t => t.id == taskId) with
  | none => simp [List.any_cons]
  | some apiTask =>
      by_cases hd : override.disabled = .bool true
      · simp [hd, List.any_cons]
      · simp only [hd, if_false, ite_false]
        set D := FIELD_VALIDATORS.filterMap (fun v => v override apiTask) ++
          objectiveDetails override apiTask ++ objectivesAddDetails override apiTask with hD
        by_cases hn : D.any
            (fun d => d.status == DetailStatus.needed || d.status == DetailStatus.check)
        · simp [hn]
        · simp [hn]

/-- Claim C9: with an empty declared `taskRequirements` list and an
active-filtered live list that is also empty, the requirements validator
emits no detail, and an override declaring only the empty list yields an
overall `FIXED` result with an empty details list. -/
theorem c9_empty_requirements_no_detail (taskId : String) (override : TaskOverride)
    (apiTask : TaskData) (apiTasks : List TaskData)
    (hreq : override.taskRequirements = some [])
    (hfil : (apiTask.taskRequirements.getD []).filter
      (fun r => match r.status with
        | none => true
        | some st => !st.contains "active") = [])
    (hf : apiTasks.find? (fun t => t.id == taskId) = some apiTask) :
    validateTaskRequirements override apiTask = none ∧
    validateTaskOverride taskId ({ taskRequirements := some [] } : TaskOverride) apiTasks =
      { id := taskId
        name := apiTask.name
        status := .FIXED
        stillNeeded := false
        details := [] } := by
  constructor
  · unfold validateTaskRequirements
    rw [hreq, hfil]
    simp
  · unfold validateTaskOverride
    rw [hf]
    have hvr : validateTaskRequirements ({ taskRequirements := some [] } : TaskOverride)
        apiTask = none := by
      unfold validateTaskRequirements
      rw [show ({ taskRequirements := some [] } : TaskOverride).taskRequirements =
        some [] from rfl, hfil]
      simp
    simp [FIELD_VALIDATORS, createFieldValidator, hvr, objectiveDetails,
      objectivesAddDetails]

theorem intercalate_go_nil (s acc : String) : String.intercalate.go acc s [] = acc := by
  simp [String.intercalate.go]

theorem intercalate_go_cons (s acc b : String) (l : List String) :
    String.intercalate.go acc s (b :: l) = String.intercalate.go (acc ++ s ++ b) s l := by
  simp [String.intercalate.go]

theorem intercalate_go_append (s : String) (l : List String) :
    ∀ x y : String, String.intercalate.go (x ++ y) s l = x ++ String.intercalate.go y s l := by
  induction l with
  | nil => intro x y; simp [intercalate_go_nil]
  | cons b bs ih =>
      intro x y
      rw [intercalate_go_cons, intercalate_go_cons]
      rw [show x ++ y ++ s ++ b = x ++ (y ++ s ++ b) by
        simp [String.append_assoc]]
      exact ih x (y ++ s ++ b)

theorem intercalate_cons_cons (s a b : String) (l : List String) :
    String.intercalate s (a :: b :: l) = a ++ s ++ String.intercalate s (b :: l) := by
  show String.intercalate.go a s (b :: l) = a ++ s ++ String.intercalate.go b s l
  rw [intercalate_go_cons]
  rw [show a ++ s ++ b = (a ++ s) ++ b from rfl]
  rw [intercalate_go_append s l (a ++ s) b]

theorem intercalate_singleton (s a : String) :
    String.intercalate s [a] = a := intercalate_go_nil s a

/-- The escaped character data of a JSON string literal body. -/
def escList (l : List Char) : List Char := (l.map escChar).flatten

/-- Character-level JSON encoding of one `string | undefined` array
element as `JSON.stringify` renders it. -/
def encElem : Option String → List Char
  | none => ['n', 'u', 'l', 'l']
  | some s => '"' :: (escList s.data ++ ['"'])

/-- Character-level comma-separated body of the JSON array of ids. -/
def encBody : List (Option String) → List Char
  | [] => []
  | x :: xs =>
      encElem x ++ (match xs with
        | [] => []
        | _ :: _ => ',' :: encBody xs)

/-- What each id renders to as a string. -/
def elemStr : Option String → String
  | none => "null"
  | some s => jsQuote s

theorem elemStr_data (x : Option String) : (elemStr x).data = encElem x := by
  cases x with
  | none => rfl
  | some s => simp [elemStr, jsQuote, encElem, escList]

theorem intercalate_elems_data (l : List (Option String)) :
    (String.intercalate "," (l.map elemStr)).data = encBody l := by
  induction l with
  | nil => rfl
  | cons x xs ih =>
      cases xs with
      | nil =>
          simp only [List.map_cons, List.map_nil, intercalate_singleton, encBody]
          simp [elemStr_data x]
      | cons y ys =>
          rw [List.map_cons, List.map_cons, intercalate_cons_cons]
          rw [String.data_append, String.data_append]
          rw [← List.map_cons, ih]
          simp [encBody, elemStr_data x]

theorem stringify_idsToJson (l : List (Option String)) :
    jsonStringify (idsToJson l) = some (String.mk ('[' :: (encBody l ++ [']']))) := by
  unfold idsToJson
  rw [jsonStringify]
  congr 1
  have h1 : ∀ m : List JsonValue,
      m.attach.map (fun x => (jsonStringify x.1).getD "null") =
      m.map (fun v => (jsonStringify v).getD "null") := by
    intro m
    exact List.attach_map_val m (fun v => (jsonStringify v).getD "null")
  rw [h1, List.map_map]
  have h2 : ((fun v => (jsonStringify v).getD "null") ∘ (fun x => match x with
      | none => JsonValue.undef
      | some s => JsonValue.str s)) = elemStr := by
    funext x
    cases x with
    | none => simp [Function.comp, elemStr, jsonStringify]
    | some s => simp [Function.comp, elemStr, jsonStringify]
  rw [h2]
  apply String.ext
  simp only [String.data_append, intercalate_elems_data]
  rfl

theorem charToNat_inj (a b : Char) (h : a.toNat = b.toNat) : a = b :=
  Char.ext (UInt32.ext h)

theorem hexDigitChar_inj : ∀ m < 16, ∀ n < 16,
    hexDigitChar m = hexDigitChar n → m = n := by decide

/-- Inverse map of the 7 short JSON escapes. -/
def shortDecode (e : Char) : Option Char :=
  if e = '"' then some '"'
  else if e = '\\' then some '\\'
  else if e = 'b' then some '\x08'
  else if e = 't' then some '\t'
  else if e = 'n' then some '\n'
  else if e = 'f' then some '\x0c'
  else if e = 'r' then some '\r'
  else none

theorem escChar_cases (c : Char) :
    (escChar c = [c] ∧ c ≠ '"' ∧ c ≠ '\\' ∧ ¬ c.toNat < 0x20) ∨
    (∃ e, escChar c = ['\\', e] ∧ e ≠ 'u' ∧ shortDecode e = some c) ∨
    (escChar c = ['\\', 'u', '0', '0',
        hexDigitChar (c.toNat / 16), hexDigitChar (c.toNat % 16)] ∧
      c.toNat < 0x20) := by
  unfold escChar
  by_cases h1 : c = '"'
  · subst h1; exact Or.inr (Or.inl ⟨'"', by simp, by decide, by decide⟩)
  by_cases h2 : c = '\\'
  · subst h2; exact Or.inr (Or.inl ⟨'\\', by simp [h1], by decide, by decide⟩)
  by_cases h3 : c = '\x08'
  · subst h3; exact Or.inr (Or.inl ⟨'b', by simp [h1, h2], by decide, by decide⟩)
  by_cases h4 : c = '\t'
  · subst h4; exact Or.inr (Or.inl ⟨'t', by simp [h1, h2, h3], by decide, by decide⟩)
  by_cases h5 : c = '\n'
  · subst h5; exact Or.inr (Or.inl ⟨'n', by simp [h1, h2, h3, h4], by decide, by decide⟩)
  by_cases h6 : c = '\x0c'
  · subst h6
    exact Or.inr (Or.inl ⟨'f', by simp [h1, h2, h3, h4, h5], by decide, by decide⟩)
  by_cases h7 : c = '\r'
  · subst h7
    exact Or.inr (Or.inl ⟨'r', by simp [h1, h2, h3, h4, h5, h6], by decide, by decide⟩)
  by_cases h8 : c.toNat < 0x20
  · exact Or.inr (Or.inr ⟨by simp [h1, h2, h3, h4, h5, h6, h7, h8], h8⟩)
  · exact Or.inl ⟨by simp [h1, h2, h3, h4, h5, h6, h7, h8], h1, h2, h8⟩

theorem escList_cons (c : Char) (l : List Char) :
    escList (c :: l) = escChar c ++ escList l := by
  simp [escList]

theorem escList_inj : ∀ (s₁ s₂ r₁ r₂ : List Char),
    escList s₁ ++ '"' :: r₁ = escList s₂ ++ '"' :: r₂ → s₁ = s₂ ∧ r₁ = r₂ := by
  intro s₁
  induction s₁ with
  | nil =>
      intro s₂ r₁ r₂ h
      cases s₂ with
      | nil =>
          simp only [escList, List.map_nil, List.flatten_nil, List.nil_append,
            List.cons.injEq] at h
          exact ⟨rfl, h.2⟩
      | cons c cs =>
          rw [escList_cons] at h
          simp only [escList, List.map_nil, List.flatten_nil, List.nil_append,
            List.append_assoc, List.cons_append, List.cons.injEq] at h
          exfalso
          rcases escChar_cases c with ⟨he, hq, hbs, hlt⟩ | ⟨e, he, hu, hd⟩ | ⟨he, hlt⟩ <;>
            rw [he] at h <;>
            simp only [List.append_assoc, List.cons_append, List.nil_append,
              List.cons.injEq] at h
          · exact hq h.1.symm
          · exact absurd h.1 (by decide)
          · exact absurd h.1 (by decide)
  | cons c₁ cs₁ ih =>
      intro s₂ r₁ r₂ h
      cases s₂ with
      | nil =>
          rw [escList_cons] at h
          simp only [escList, List.map_nil, List.flatten_nil, List.nil_append,
            List.append_assoc, List.cons_append, List.cons.injEq] at h
          exfalso
          rcases escChar_cases c₁ with ⟨he, hq, hbs, hlt⟩ | ⟨e, he, hu, hd⟩ | ⟨he, hlt⟩ <;>
            rw [he] at h <;>
            simp only [List.append_assoc, List.cons_append, List.nil_append,
              List.cons.injEq] at h
          · exact hq h.1
          · exact absurd h.1.symm (by decide)
          · exact absurd h.1.symm (by decide)
      | cons c₂ cs₂ =>
          rw [escList_cons, escList_cons] at h
          rcases escChar_cases c₁ with ⟨he₁, hq₁, hbs₁, hlt₁⟩ | ⟨e₁, he₁, hu₁, hd₁⟩ |
              ⟨he₁, hlt₁⟩ <;>
            rcases escChar_cases c₂ with ⟨he₂, hq₂, hbs₂, hlt₂⟩ | ⟨e₂, he₂, hu₂, hd₂⟩ |
              ⟨he₂, hlt₂⟩ <;>
            rw [he₁, he₂] at h <;>
            simp only [List.append_assoc, List.cons_append, List.nil_append,
              List.cons.injEq] at h
          · obtain ⟨h1, h2⟩ := h
            subst h1
            obtain ⟨ha, hb⟩ := ih cs₂ r₁ r₂ h2
            exact ⟨by rw [ha], hb⟩
          · exact absurd h.1 hbs₁
          · exact absurd h.1 hbs₁
          · exact absurd h.1.symm hbs₂
          · obtain ⟨-, h2, h3⟩ := h
            subst h2
            have hc : c₁ = c₂ := Option.some.inj (hd₁.symm.trans hd₂)
            subst hc
            obtain ⟨ha, hb⟩ := ih cs₂ r₁ r₂ h3
            exact ⟨by rw [ha], hb⟩
          · obtain ⟨-, h2, -⟩ := h
            exact absurd h2 hu₁
          · exact absurd h.1.symm hbs₂
          · obtain ⟨-, h2, -⟩ := h
            exact absurd h2.symm hu₂
          · obtain ⟨-, -, -, -, h5, h6, h7⟩ := h
            have hb1 : c₁.toNat / 16 < 16 := by omega
            have hb2 : c₁.toNat % 16 < 16 := Nat.mod_lt _ (by omega)
            have hb3 : c₂.toNat / 16 < 16 := by omega
            have hb4 : c₂.toNat % 16 < 16 := Nat.mod_lt _ (by omega)
            have hdiv := hexDigitChar_inj _ hb1 _ hb3 h5
            have hmod := hexDigitChar_inj _ hb2 _ hb4 h6
            have hc : c₁ = c₂ := charToNat_inj c₁ c₂ (by omega)
            subst hc
            obtain ⟨ha, hb⟩ := ih cs₂ r₁ r₂ h7
            exact ⟨by rw [ha], hb⟩

theorem encElem_inj : ∀ (x y : Option String) (r₁ r₂ : List Char),
    encElem x ++ r₁ = encElem y ++ r₂ → x = y ∧ r₁ = r₂ := by
  intro x y r₁ r₂ h
  cases x with
  | none =>
      cases y with
      | none =>
          simp only [encElem, List.cons_append, List.nil_append, List.cons.injEq] at h
          exact ⟨rfl, h.2.2.2.2⟩
      | some t =>
          simp only [encElem, List.cons_append, List.nil_append, List.append_assoc,
            List.cons.injEq] at h
          exact absurd h.1 (by decide)
  | some s =>
      cases y with
      | none =>
          simp only [encElem, List.cons_append, List.nil_append, List.append_assoc,
            List.cons.injEq] at h
          exact absurd h.1 (by decide)
      | some t =>
          simp only [encElem, List.cons_append, List.nil_append, List.append_assoc,
            List.cons.injEq] at h
          obtain ⟨hs, hr⟩ := escList_inj s.data t.data r₁ r₂ (by simpa using h)
          exact ⟨by rw [String.ext hs], hr⟩

theorem encBody_single (x : Option String) : encBody [x] = encElem x := by
  simp [encBody]

theorem encBody_cons2 (x y : Option String) (ys : List (Option String)) :
    encBody (x :: y :: ys) = encElem x ++ ',' :: encBody (y :: ys) := by
  simp [encBody]

theorem encBody_inj : ∀ (l₁ l₂ : List (Option String)) (r₁ r₂ : List Char),
    encBody l₁ ++ ']' :: r₁ = encBody l₂ ++ ']' :: r₂ → l₁ = l₂ ∧ r₁ = r₂ := by
  intro l₁
  induction l₁ with
  | nil =>
      intro l₂ r₁ r₂ h
      cases l₂ with
      | nil =>
          simp only [encBody, List.nil_append, List.cons.injEq] at h
          exact ⟨rfl, h.2⟩
      | cons x xs =>
          exfalso
          cases xs with
          | nil =>
              rw [encBody_single] at h
              simp only [encBody, List.nil_append] at h
              cases x with
              | none =>
                  simp only [encElem, List.cons_append, List.cons.injEq] at h
                  exact absurd h.1 (by decide)
              | some s =>
                  simp only [encElem, List.cons_append, List.cons.injEq] at h
                  exact absurd h.1 (by decide)
          | cons y ys =>
              rw [encBody_cons2] at h
              simp only [encBody, List.nil_append, List.append_assoc] at h
              cases x with
              | none =>
                  simp only [encElem, List.cons_append, List.cons.injEq] at h
                  exact absurd h.1 (by decide)
              | some s =>
                  simp only [encElem, List.cons_append, List.cons.injEq] at h
                  exact absurd h.1 (by decide)
  | cons x₁ xs₁ ih =>
      intro l₂ r₁ r₂ h
      cases l₂ with
      | nil =>
          exfalso
          cases xs₁ with
          | nil =>
              rw [encBody_single] at h
              simp only [encBody, List.nil_append] at h
              cases x₁ with
              | none =>
                  simp only [encElem, List.cons_append, List.cons.injEq] at h
                  exact absurd h.1.symm (by decide)
              | some s =>
                  simp only [encElem, List.cons_append, List.cons.injEq] at h
                  exact absurd h.1.symm (by decide)
          | cons y ys =>
              rw [encBody_cons2] at h
              simp only [encBody, List.nil_append, List.append_assoc] at h
              cases x₁ with
              | none =>
                  simp only [encElem, List.cons_append, List.cons.injEq] at h
                  exact absurd h.1.symm (by decide)
              | some s =>
                  simp only [encElem, List.cons_append, List.cons.injEq] at h
                  exact absurd h.1.symm (by decide)
      | cons x₂ xs₂ =>
          cases xs₁ with
          | nil =>
              cases xs₂ with
              | nil =>
                  rw [encBody_single, encBody_single] at h
                  obtain ⟨hx, hr⟩ := encElem_inj x₁ x₂ _ _ h
                  simp only [List.cons.injEq] at hr
                  exact ⟨by rw [hx], hr.2⟩
              | cons y₂ ys₂ =>
                  exfalso
                  rw [encBody_single, encBody_cons2] at h
                  rw [List.append_assoc] at h
                  obtain ⟨-, hr⟩ := encElem_inj x₁ x₂ _ _ h
                  simp only [List.cons_append, List.cons.injEq] at hr
                  exact absurd hr.1 (by decide)
          | cons y₁ ys₁ =>
              cases xs₂ with
              | nil =>
                  exfalso
                  rw [encBody_cons2, encBody_single] at h
                  rw [List.append_assoc] at h
                  obtain ⟨-, hr⟩ := encElem_inj x₁ x₂ _ _ h
                  simp only [List.cons_append, List.cons.injEq] at hr
                  exact absurd hr.1.symm (by decide)
              | cons y₂ ys₂ =>
                  rw [encBody_cons2, encBody_cons2] at h
                  rw [List.append_assoc, List.append_assoc] at h
                  obtain ⟨hx, hr⟩ := encElem_inj x₁ x₂ _ _ h
                  simp only [List.cons_append, List.cons.injEq] at hr
                  obtain ⟨ht, hrr⟩ := ih (y₂ :: ys₂) r₁ r₂ hr.2
                  exact ⟨by rw [hx, ht], hrr⟩

theorem stringify_ids_inj (l₁ l₂ : List (Option String))
    (h : jsonStringify (idsToJson l₁) = jsonStringify (idsToJson l₂)) :
    l₁ = l₂ := by
  rw [stringify_idsToJson, stringify_idsToJson] at h
  have h2 : '[' :: (encBody l₁ ++ [']']) = '[' :: (encBody l₂ ++ [']']) := by
    simpa using congrArg String.data (Option.some.inj h)
  simp only [List.cons.injEq, true_and] at h2
  exact (encBody_inj l₁ l₂ [] [] h2).1

/-- Claim C8: the `taskRequirements` validator filters out live
requirements whose status includes `active`; an empty filtered list
against a non-empty override emits `needed`; a non-empty filtered list
is compared by sorted id lists, giving `fixed` on a match and `needed`
(with both id lists in the message) on a mismatch. -/
theorem c8_task_requirements_validator (override : TaskOverride) (apiTask : TaskData)
    (ovReqs : List OverrideReq)
    (hov : override.taskRequirements = some ovReqs) :
    (((apiTask.taskRequirements.getD []).filter
        (fun r => match r.status with
          | none => true
          | some st => !st.contains "active")) = [] → ovReqs ≠ [] →
      validateTaskRequirements override apiTask = some
        { field := "taskRequirements"
          status := .needed
          message := "taskRequirements: API=[] (empty), Override has " ++
            toString ovReqs.length ++ " requirement(s) - STILL NEEDED" }) ∧
    (∀ apiReqs, ((apiTask.taskRequirements.getD []).filter
        (fun r => match r.status with
          | none => true
          | some st => !st.contains "active")) = apiReqs → apiReqs ≠ [] →
      (sortIds (apiReqs.map (fun r => r.task.bind (fun t => t.id))) =
          sortIds (ovReqs.map (fun r => r.task.bind (fun t => t.id))) →
        validateTaskRequirements override apiTask = some
          { field := "taskRequirements"
            status := .fixed
            message := "taskRequirements: FIXED IN API" }) ∧
      (sortIds (apiReqs.map (fun r => r.task.bind (fun t => t.id))) ≠
          sortIds (ovReqs.map (fun r => r.task.bind (fun t => t.id))) →
        validateTaskRequirements override apiTask = some
          { field := "taskRequirements"
            status := .needed
            message := "taskRequirements: API has different requirements (" ++
              joinIds (sortIds (apiReqs.map (fun r => r.task.bind (fun t => t.id)))) ++
              ") vs Override (" ++
              joinIds (sortIds (ovReqs.map (fun r => r.task.bind (fun t => t.id)))) ++
              ") - NEEDS REVIEW" })) := by
  unfold validateTaskRequirements
  simp only [hov]
  constructor
  · intro hae hone
    rw [hae]
    rw [if_pos ⟨rfl, List.length_pos.mpr hone⟩]
  · intro apiReqs hae hane
    rw [hae]
    have hlen : ¬ (apiReqs.length = 0 ∧ ovReqs.length > 0) := by
      intro hc
      exact hane (List.length_eq_zero.mp hc.1)
    rw [if_neg hlen, if_pos (List.length_pos.mpr hane)]
    constructor
    · intro heq
      rw [heq]
      rw [if_neg (fun hc => hc rfl)]
    · intro hne
      rw [if_pos (fun hc => hne (stringify_ids_inj _ _ hc))]

/-- Concrete instance of the C5 theorem. -/
theorem c5_apply_overlay_noop_witness :
    applyTaskOverlay [("id", .str "t1")]
        [("tasks", .obj [("zz", .obj [("disabled", .bool true)])])] =
      .ok (some [("id", .str "t1")]) :=
  c5_apply_overlay_noop [("id", .str "t1")]
    [("tasks", .obj [("zz", .obj [("disabled", .bool true)])])]
    [("zz", .obj [("disabled", .bool true)])] rfl
    (by simp [jsToStr, getProp, List.find?])

/-- Concrete instance of the C4 theorem. -/
theorem c4_disabled_drops_task_witness :
    applyTaskOverlay [("id", .str "a")]
        [("tasks", .obj [("a", .obj [("disabled", .bool true)])])] = .ok none ∧
    applyOverlayToTasks
        ([[("id", .str "x")]] ++ [("id", .str "a")] :: [[("id", .str "y")]])
        [("tasks", .obj [("a", .obj [("disabled", .bool true)])])] =
      applyOverlayToTasks ([[("id", .str "x")]] ++ [[("id", .str "y")]])
        [("tasks", .obj [("a", .obj [("disabled", .bool true)])])] :=
  ⟨(c4_disabled_drops_task [("id", .str "a")]
      [("tasks", .obj [("a", .obj [("disabled", .bool true)])])]
      [("disabled", .bool true)] (by simp [jsIndex, jsToStr, getProp, List.find?]) rfl).1,
   (c4_disabled_drops_task [("id", .str "a")]
      [("tasks", .obj [("a", .obj [("disabled", .bool true)])])]
      [("disabled", .bool true)] (by simp [jsIndex, jsToStr, getProp, List.find?]) rfl).2
     [[("id", .str "x")]] [[("id", .str "y")]]⟩

/-- Concrete instance of the C10 theorem. -/
theorem c10_disabled_nontrue_kept_witness :
    ∃ out, applyTaskOverlay [("id", .str "a"), ("objectives", .arr [])]
        [("tasks", .obj [("a", .obj [("disabled", .bool false), ("name", .str "N")])])] =
      .ok (some out) ∧ getProp out "disabled" = .bool false :=
  c10_disabled_nontrue_kept [("id", .str "a"), ("objectives", .arr [])]
    [("tasks", .obj [("a", .obj [("disabled", .bool false), ("name", .str "N")])])]
    [("disabled", .bool false), ("name", .str "N")]
    (.bool false) [] (by simp [jsIndex, jsToStr, getProp, List.find?]) (by decide)
    (by decide) rfl (by decide) rfl (Or.inl rfl)

/-- Concrete instance of the C3 theorem. -/
theorem c3_objectives_merge_and_append_witness :
    ∃ out : JsObject, ∃ merged : List JsonValue,
      applyTaskOverlay
          [("id", .str "a1"),
           ("objectives", .arr [.obj [("id", .str "a"), ("count", .num 1)],
             .obj [("id", .str "b"), ("count", .num 2)]])]
          [("tasks", .obj [("a1", .obj
            [("objectives", .obj [("b", .obj [("count", .num 5)])]),
             ("objectivesAdd", .arr [.obj [("id", .str "z"), ("description", .str "New")]])])])] =
        .ok (some out) ∧
      getProp out "objectives" =
        .arr (merged ++ [.obj [("id", .str "z"), ("description", .str "New")]]) ∧
      merged.length = 2 ∧
      (∀ (i : Nat) (ofs : JsObject) (oid : String),
        ([JsonValue.obj [("id", .str "a"), ("count", .num 1)],
          JsonValue.obj [("id", .str "b"), ("count", .num 2)]])[i]? =
            some (JsonValue.obj ofs) →
        getProp ofs "id" = .str oid →
        (([("b", JsonValue.obj [("count", .num 5)])].find? (fun kv => kv.1 = oid) = none →
            merged[i]? = some (JsonValue.obj ofs)) ∧
         (∀ (pk : String) (pfs : JsObject),
           [("b", JsonValue.obj [("count", .num 5)])].find? (fun kv => kv.1 = oid) =
              some (pk, .obj pfs) →
           merged[i]? = some (JsonValue.obj (assignProps ofs pfs)) ∧
           ((pfs.map Prod.fst).Nodup → ∀ key,
             getProp (assignProps ofs pfs) key =
               if key ∈ pfs.map Prod.fst then getProp pfs key
               else getProp ofs key)))) ∧
      (∀ j, (merged ++ [.obj [("id", .str "z"), ("description", .str "New")]])[2 + j]? =
        [JsonValue.obj [("id", .str "z"), ("description", .str "New")]][j]?) :=
  c3_objectives_merge_and_append
    [("id", .str "a1"),
     ("objectives", .arr [.obj [("id", .str "a"), ("count", .num 1)],
       .obj [("id", .str "b"), ("count", .num 2)]])]
    [("tasks", .obj [("a1", .obj
      [("objectives", .obj [("b", .obj [("count", .num 5)])]),
       ("objectivesAdd", .arr [.obj [("id", .str "z"), ("description", .str "New")]])])])]
    [("objectives", .obj [("b", .obj [("count", .num 5)])]),
     ("objectivesAdd", .arr [.obj [("id", .str "z"), ("description", .str "New")]])]
    [("b", .obj [("count", .num 5)])]
    [.obj [("id", .str "a"), ("count", .num 1)], .obj [("id", .str "b"), ("count", .num 2)]]
    [.obj [("id", .str "z"), ("description", .str "New")]]
    (by simp [jsIndex, jsToStr, getProp, List.find?]) (by decide) rfl
    (Or.inl rfl) (Or.inl rfl)

/-- Concrete instance of the C9 theorem. -/
theorem c9_empty_requirements_no_detail_witness :
    validateTaskRequirements ({ taskRequirements := some [] } : TaskOverride)
        ({ id := "a1", name := "A",
           taskRequirements := some [⟨some ⟨some "X"⟩, some ["active"]⟩] } : TaskData) =
      none ∧
    validateTaskOverride "a1" ({ taskRequirements := some [] } : TaskOverride)
        [{ id := "a1", name := "A",
           taskRequirements := some [⟨some ⟨some "X"⟩, some ["active"]⟩] }] =
      { id := "a1"
        name := "A"
        status := .FIXED
        stillNeeded := false
        details := [] } :=
  c9_empty_requirements_no_detail "a1" { taskRequirements := some [] }
    { id := "a1", name := "A",
      taskRequirements := some [⟨some ⟨some "X"⟩, some ["active"]⟩] }
    [{ id := "a1", name := "A",
       taskRequirements := some [⟨some ⟨some "X"⟩, some ["active"]⟩] }]
    rfl rfl rfl

/-- Concrete instance of the C8 theorem (mismatching requirement sets). -/
theorem c8_task_requirements_validator_witness :
    validateTaskRequirements
        ({ taskRequirements := some [⟨some ⟨some "X"⟩⟩] } : TaskOverride)
        ({ id := "a1", name := "A",
           taskRequirements := some [⟨some ⟨some "Y"⟩, none⟩] } : TaskData) =
      some
        { field := "taskRequirements"
          status := .needed
          message := "taskRequirements: API has different requirements (Y) vs Override (X) - NEEDS REVIEW" } :=
  ((c8_task_requirements_validator
      { taskRequirements := some [⟨some ⟨some "X"⟩⟩] }
      { id := "a1", name := "A", taskRequirements := some [⟨some ⟨some "Y"⟩, none⟩] }
      [⟨some ⟨some "X"⟩⟩] rfl).2
    [⟨some ⟨some "Y"⟩, none⟩] rfl (by decide)).2 (by decide)

/-- Strong induction over `JsonValue` descending into array elements
and object field values. -/
theorem jsonStrongInd (P : JsonValue → Prop)
    (hundef : P .undef) (hnull : P .null)
    (hbool : ∀ b, P (.bool b)) (hnum : ∀ n, P (.num n)) (hstr : ∀ s, P (.str s))
    (harr : ∀ xs, (∀ x ∈ xs, P x) → P (.arr xs))
    (hobj : ∀ fs, (∀ kv ∈ fs, P kv.2) → P (.obj fs)) : ∀ v, P v
  | .undef => hundef
  | .null => hnull
  | .bool b => hbool b
  | .num n => hnum n
  | .str s => hstr s
  | .arr xs => harr xs (fun x hx =>
      jsonStrongInd P hundef hnull hbool hnum hstr harr hobj x)
  | .obj fs => hobj fs (fun kv hkv =>
      jsonStrongInd P hundef hnull hbool hnum hstr harr hobj kv.2)
termination_by v => sizeOf v
decreasing_by
  · have := List.sizeOf_lt_of_mem hx
    simp only [JsonValue.arr.sizeOf_spec]
    omega
  · obtain ⟨a, b⟩ := kv
    have := List.sizeOf_lt_of_mem hkv
    simp only [JsonValue.obj.sizeOf_spec, Prod.mk.sizeOf_spec] at this ⊢
    omega

/-- Reference definition of the subset comparison, transliterated from
the spec's words (§4.2): `undefined` is trivially satisfied; scalars,
`null` and arrays delegate to `valuesEqual`; a non-array object requires
the live value to be a non-array object and every key present in the
override to recursively compare, ignoring keys absent from the
override. -/
def compareSubsetSpec (overrideValue liveValue : JsonValue) : Bool :=
  match overrideValue with
  | .undef => true
  | .obj fs =>
      match liveValue with
      | .obj lfs =>
          fs.attach.all (fun kv => compareSubsetSpec kv.1.2 (getProp lfs kv.1.1))
      | _ => false
  | _ => valuesEqual overrideValue liveValue
termination_by sizeOf overrideValue
decreasing_by
  obtain ⟨⟨a, b⟩, hm⟩ := kv
  have := List.sizeOf_lt_of_mem hm
  simp only [JsonValue.obj.sizeOf_spec, Prod.mk.sizeOf_spec] at this ⊢
  omega

/-- Claim C2: the source's `compareSubset` coincides with the spec's
reference definition on every pair of values. -/
theorem c2_compare_subset_refines_spec :
    ∀ overrideValue liveValue : JsonValue,
      compareSubset overrideValue liveValue =
        compareSubsetSpec overrideValue liveValue := by
  intro ov
  induction ov using jsonStrongInd with
  | hundef => intro live; simp [compareSubset, compareSubsetSpec]
  | hnull => intro live; simp [compareSubset, compareSubsetSpec]
  | hbool b => intro live; simp [compareSubset, compareSubsetSpec]
  | hnum n => intro live; simp [compareSubset, compareSubsetSpec]
  | hstr s => intro live; simp [compareSubset, compareSubsetSpec]
  | harr xs ih => intro live; simp [compareSubset, compareSubsetSpec]
  | hobj fs ih =>
      intro live
      cases live <;> simp [compareSubset, compareSubsetSpec] <;>
        first
          | rfl
          | (congr 1
             funext kv
             exact ih kv.1 kv.2 _)

theorem normalizeValue_arr (xs : List JsonValue) :
    normalizeValue (.arr xs) =
      .arr (List.insertionSort keyLE (xs.map normalizeValue)) := by
  rw [normalizeValue]
  congr 2
  exact List.attach_map_val xs normalizeValue

theorem normalizeValue_obj (fs : JsObject) :
    normalizeValue (.obj fs) =
      .obj ((List.insertionSort (· ≤ ·) (fs.map Prod.fst)).map
        (fun k => (k, normalizeValue (getProp fs k)))) := by
  rw [normalizeValue]

theorem getProp_cases (fs : JsObject) (k : String) :
    getProp fs k = .undef ∨ ∃ kv, kv ∈ fs ∧ getProp fs k = kv.2 := by
  unfold getProp
  cases hf : fs.find? (fun kv => kv.1 = k) with
  | none => exact Or.inl rfl
  | some kv => exact Or.inr ⟨kv, List.mem_of_find?_eq_some hf, rfl⟩

theorem getProp_map_keyed (g : String → JsonValue) (ks : List String) (k : String)
    (hk : k ∈ ks) : getProp (ks.map (fun k => (k, g k))) k = g k := by
  induction ks with
  | nil => simp at hk
  | cons k0 t ih =>
      by_cases h : k0 = k
      · subst h
        simp [getProp, List.find?]
      · simp only [List.mem_cons] at hk
        rcases hk with hk | hk
        · exact absurd hk.symm h
        · have ih2 := ih hk
          simp only [getProp, List.find?, List.map_cons] at ih2 ⊢
          simpa [h] using ih2

/-- Claim C7: normalization is idempotent on every JSON-compatible
value. -/
theorem c7_normalize_idempotent :
    ∀ x : JsonValue, normalizeValue (normalizeValue x) = normalizeValue x := by
  intro x
  induction x using jsonStrongInd with
  | hundef => simp [normalizeValue]
  | hnull => simp [normalizeValue]
  | hbool b => simp [normalizeValue]
  | hnum n => simp [normalizeValue]
  | hstr s => simp [normalizeValue]
  | harr xs ih =>
      rw [normalizeValue_arr, normalizeValue_arr]
      congr 1
      have hmem : ∀ y ∈ List.insertionSort keyLE (xs.map normalizeValue),
          normalizeValue y = y := by
        intro y hy
        have hy2 : y ∈ xs.map normalizeValue := (List.mem_insertionSort keyLE).mp hy
        obtain ⟨x₀, hx₀, rfl⟩ := List.mem_map.mp hy2
        exact ih x₀ hx₀
      rw [List.map_congr_left hmem,
        show (fun a : JsonValue => a) = id from rfl, List.map_id]
      exact (List.sorted_insertionSort keyLE _).insertionSort_eq
  | hobj fs ih =>
      rw [normalizeValue_obj, normalizeValue_obj]
      have hkeys : ((List.insertionSort (· ≤ ·) (fs.map Prod.fst)).map
          (fun k => (k, normalizeValue (getProp fs k)))).map Prod.fst =
          List.insertionSort (· ≤ ·) (fs.map Prod.fst) := by
        rw [List.map_map]
        have hcid : (Prod.fst ∘ fun k => (k, normalizeValue (getProp fs k))) =
            @id String := by
          funext k
          rfl
        rw [hcid, List.map_id]
      rw [hkeys]
      rw [(List.sorted_insertionSort (· ≤ ·) (fs.map Prod.fst)).insertionSort_eq]
      congr 1
      apply List.map_congr_left
      intro k hk
      rw [getProp_map_keyed (fun k => normalizeValue (getProp fs k)) _ k hk]
      have hidem : normalizeValue (normalizeValue (getProp fs k)) =
          normalizeValue (getProp fs k) := by
        rcases getProp_cases fs k with h | ⟨kv, hkv, h⟩
        · rw [h]; simp [normalizeValue]
        · rw [h]; exact ih kv hkv
      rw [hidem]

theorem sorted_perm_eq_of_key_inj :
    ∀ (L₁ L₂ : List JsonValue), L₁.Perm L₂ →
      L₁.Sorted keyLE → L₂.Sorted keyLE →
      (∀ a ∈ L₁, ∀ b ∈ L₁, sortKey a = sortKey b → a = b) → L₁ = L₂ := by
  intro L₁
  induction L₁ with
  | nil =>
      intro L₂ hp _ _ _
      exact hp.symm.eq_nil.symm
  | cons a t₁ ih =>
      intro L₂ hp hs₁ hs₂ hinj
      cases L₂ with
      | nil =>
          have := hp.eq_nil
          simp at this
      | cons b t₂ =>
          have ha2 : a ∈ b :: t₂ := hp.mem_iff.mp (List.mem_cons_self a t₁)
          have hb1 : b ∈ a :: t₁ := hp.symm.mem_iff.mp (List.mem_cons_self b t₂)
          have hab : a = b := by
            have hk1 : keyLE a b := by
              rcases List.mem_cons.mp hb1 with h | h
              · rw [h]
                exact le_refl _
              · exact List.rel_of_sorted_cons hs₁ b h
            have hk2 : keyLE b a := by
              rcases List.mem_cons.mp ha2 with h | h
              · rw [h]
                exact le_refl _
              · exact List.rel_of_sorted_cons hs₂ a h
            have hkey : sortKey a = sortKey b := le_antisymm hk1 hk2
            rcases List.mem_cons.mp hb1 with h | h
            · exact h.symm
            · exact hinj a (List.mem_cons_self a t₁) b (List.mem_cons.mpr (Or.inr h)) hkey
          subst hab
          have ht : t₁.Perm t₂ := hp.cons_inv
          have hrec := ih t₂ ht hs₁.of_cons hs₂.of_cons
            (fun x hx y hy hk => hinj x (List.mem_cons.mpr (Or.inr hx))
              y (List.mem_cons.mpr (Or.inr hy)) hk)
          rw [hrec]

theorem find?_key_unique (fs : JsObject) (hnd : (fs.map Prod.fst).Nodup)
    (kv : String × JsonValue) (hkv : kv ∈ fs) (k : String) (hk : kv.1 = k) :
    fs.find? (fun x => x.1 = k) = some kv := by
  induction fs with
  | nil => simp at hkv
  | cons h0 t ih =>
      simp only [List.map_cons, List.nodup_cons] at hnd
      rcases List.mem_cons.mp hkv with he | hm
      · subst he
        simp [List.find?, hk]
      · have hne : ¬ (h0.1 = k) := by
          intro hc
          exact hnd.1 (by
            rw [hc, ← hk]
            exact List.mem_map.mpr ⟨kv, hm, rfl⟩)
        simp only [List.find?, hne, decide_eq_true_eq]
        simpa [hne] using ih hnd.2 hm

theorem getProp_of_perm (fs fs' : JsObject) (hp : fs.Perm fs')
    (hnd : (fs.map Prod.fst).Nodup) (k : String) (hk : k ∈ fs.map Prod.fst) :
    getProp fs' k = getProp fs k := by
  obtain ⟨kv, hkv, hkey⟩ := List.mem_map.mp hk
  have h1 := find?_key_unique fs hnd kv hkv k hkey
  have hnd' : (fs'.map Prod.fst).Nodup := ((hp.map Prod.fst).nodup_iff).mp hnd
  have h2 := find?_key_unique fs' hnd' kv (hp.mem_iff.mp hkv) k hkey
  unfold getProp
  rw [h1, h2]

/-- Counterexample to claim C6 as stated: `[null, "null"]` and its
permutation `["null", null]` have equal sort keys for both elements
(both are the string `null`), so the stable sort keeps each input
order and the two normalizations differ. -/
theorem c6_order_insensitivity_counterexample :
    [JsonValue.str "null", JsonValue.null].Perm [JsonValue.null, JsonValue.str "null"] ∧
    normalizeValue (.arr [JsonValue.null, JsonValue.str "null"]) ≠
      normalizeValue (.arr [JsonValue.str "null", JsonValue.null]) := by
  constructor
  · exact List.Perm.swap _ _ _
  · have h1 : normalizeValue (.arr [JsonValue.null, JsonValue.str "null"]) =
        .arr [JsonValue.null, JsonValue.str "null"] := by
      rw [normalizeValue_arr]
      simp [normalizeValue, List.insertionSort, List.orderedInsert, keyLE, sortKey]
    have h2 : normalizeValue (.arr [JsonValue.str "null", JsonValue.null]) =
        .arr [JsonValue.str "null", JsonValue.null] := by
      rw [normalizeValue_arr]
      simp [normalizeValue, List.insertionSort, List.orderedInsert, keyLE, sortKey]
    rw [h1, h2]
    decide

/-- Claim C6 amended: array normalization is permutation-invariant
provided any two elements whose normalized forms share a sort key have
equal normalized forms (distinct tied elements are kept in input order
by the stable sort, cf. the counterexample); object normalization is
invariant under key reordering for objects with duplicate-free keys. -/
theorem c6_order_insensitivity_amended :
    (∀ (xs xs' : List JsonValue), xs.Perm xs' →
      (∀ x ∈ xs, ∀ y ∈ xs,
        sortKey (normalizeValue x) = sortKey (normalizeValue y) →
        normalizeValue x = normalizeValue y) →
      normalizeValue (.arr xs) = normalizeValue (.arr xs')) ∧
    (∀ (fs fs' : JsObject), fs.Perm fs' → (fs.map Prod.fst).Nodup →
      normalizeValue (.obj fs) = normalizeValue (.obj fs')) := by
  constructor
  · intro xs xs' hperm hinj
    rw [normalizeValue_arr, normalizeValue_arr]
    congr 1
    apply sorted_perm_eq_of_key_inj
    · exact (List.perm_insertionSort keyLE _).trans
        ((hperm.map normalizeValue).trans (List.perm_insertionSort keyLE _).symm)
    · exact List.sorted_insertionSort keyLE _
    · exact List.sorted_insertionSort keyLE _
    · intro a ha b hb hk
      obtain ⟨x₀, hx₀, rfl⟩ := List.mem_map.mp ((List.mem_insertionSort keyLE).mp ha)
      obtain ⟨y₀, hy₀, rfl⟩ := List.mem_map.mp ((List.mem_insertionSort keyLE).mp hb)
      exact hinj x₀ hx₀ y₀ hy₀ hk
  · intro fs fs' hp hnd
    rw [normalizeValue_obj, normalizeValue_obj]
    congr 1
    have hkeys : List.insertionSort (· ≤ ·) (fs'.map Prod.fst) =
        List.insertionSort (· ≤ ·) (fs.map Prod.fst) := by
      refine @List.eq_of_perm_of_sorted String (· ≤ ·) inferInstance _ _ ?_ ?_ ?_
      · exact (List.perm_insertionSort _ _).trans
          (((hp.map Prod.fst).symm).trans (List.perm_insertionSort _ _).symm)
      · exact List.sorted_insertionSort _ _
      · exact List.sorted_insertionSort _ _
    rw [hkeys]
    apply List.map_congr_left
    intro k hk
    rw [getProp_of_perm fs fs' hp hnd k ((List.mem_insertionSort _).mp hk)]

/-- Concrete instance of the amended C6 theorem: a two-element array
with distinct sort keys, and a two-field object, each permuted. -/
theorem c6_order_insensitivity_amended_witness :
    normalizeValue (.arr [JsonValue.null, JsonValue.bool true]) =
      normalizeValue (.arr [JsonValue.bool true, JsonValue.null]) ∧
    normalizeValue (.obj [("b", JsonValue.num 1), ("a", JsonValue.num 2)]) =
      normalizeValue (.obj [("a", JsonValue.num 2), ("b", JsonValue.num 1)]) := by
  constructor
  · apply c6_order_insensitivity_amended.1
    · exact List.Perm.swap _ _ _
    · have hn : normalizeValue JsonValue.null = JsonValue.null := by
        simp [normalizeValue]
      have hb : normalizeValue (JsonValue.bool true) = JsonValue.bool true := by
        simp [normalizeValue]
      intro x hx y hy hk
      simp only [List.mem_cons, List.not_mem_nil, or_false] at hx hy
      rcases hx with rfl | rfl <;> rcases hy with rfl | rfl <;>
        simp only [hn, hb] at hk ⊢ <;>
        first
          | rfl
          | (exact absurd (by simpa [sortKey] using hk) (by decide))
  · apply c6_order_insensitivity_amended.2
    · exact List.Perm.swap _ _ _
    · decide
